import Mathlib

/-!
Shallow embedding of the Qwen streaming decoder of
src/rig-core/src/providers/qwen.rs (function send_qwen_streaming_request,
lines 1109-1395), together with proofs about its event-loop behaviour.

Modelling conventions:
* Rust strings are List Char; str::len (UTF-8 byte count) is byteLen.
* serde_json::from_str::<serde_json::Value> is the executable parser
  Json.parse (JSON numbers restricted to integers, which covers every
  argument payload considered here).
* The chunk-level deserializer serde_json::from_str::<StreamingCompletionChunk>
  is external library behaviour and is kept abstract: runs are parameterised
  by a ChunkParser.
* The tool-call map calls : HashMap<usize,(String,String,String)> is an
  association list with key-replacing insert; since the iteration order of
  std HashMap is unspecified, stream-end finalization is parameterised by an
  enumeration function that must produce some permutation of the entries
  (validEnum).
-/

namespace Qwen

/-- Rust String / str, modelled as its character sequence. -/
abbrev Str := List Char

/-- str::len - the UTF-8 byte length of a Rust string. -/
def byteLen (s : Str) : Nat := (s.map Char.utf8Size).sum

/-- serde_json::Value (numbers restricted to integers). -/
inductive Json where
  | null : Json
  | bool (b : Bool) : Json
  | num (n : Int) : Json
  | str (s : Str) : Json
  | arr (elems : List Json) : Json
  | obj (fields : List (Str × Json)) : Json
deriving Repr

/-- Skip JSON insignificant whitespace. -/
def skipWs (s : Str) : Str :=
  s.dropWhile (fun c => c = ' ' || c = '\t' || c = '\n' || c = '\r')

/-- Expect a literal keyword fragment. -/
def expectLit (lit s : Str) : Option Str :=
  if lit.isPrefixOf s then some (s.drop lit.length) else none

/-- Parse the body of a JSON string after the opening quote; returns the
decoded content and the remainder after the closing quote. -/
def parseStringBody : Nat → Str → Option (Str × Str)
  | 0, _ => none
  | _+1, [] => none
  | f+1, c :: rest =>
    if c = '"' then some ([], rest)
    else if c = '\\' then
      match rest with
      | [] => none
      | e :: rest2 =>
        let d : Option Char :=
          if e = '"' then some '"'
          else if e = '\\' then some '\\'
          else if e = '/' then some '/'
          else if e = 'n' then some '\n'
          else if e = 't' then some '\t'
          else if e = 'r' then some '\r'
          else if e = 'b' then some (Char.ofNat 8)
          else if e = 'f' then some (Char.ofNat 12)
          else none
        match d with
        | none => none
        | some dc => (parseStringBody f rest2).map (fun p => (dc :: p.1, p.2))
    else (parseStringBody f rest).map (fun p => (c :: p.1, p.2))

/-- Decimal digits to Nat. -/
def digitsToNat (ds : Str) : Nat :=
  ds.foldl (fun n c => n * 10 + (c.toNat - '0'.toNat)) 0

/-- Parse a JSON integer literal. -/
def parseNum : Str → Option (Json × Str)
  | '-' :: rest =>
    let ds := rest.takeWhile Char.isDigit
    if ds.isEmpty then none
    else some (Json.num (-(digitsToNat ds : Int)), rest.drop ds.length)
  | s =>
    let ds := s.takeWhile Char.isDigit
    if ds.isEmpty then none
    else some (Json.num (digitsToNat ds : Int), s.drop ds.length)

mutual

/-- Fuel-indexed JSON value grammar. -/
def parseVal : Nat → Str → Option (Json × Str)
  | 0, _ => none
  | f+1, s =>
    match skipWs s with
    | [] => none
    | c :: rest =>
      if c = '\x7b' then
        match skipWs rest with
        | '\x7d' :: r2 => some (Json.obj [], r2)
        | r => parseMembers f r []
      else if c = '[' then
        match skipWs rest with
        | ']' :: r2 => some (Json.arr [], r2)
        | r => parseElems f r []
      else if c = '"' then
        (parseStringBody (rest.length + 1) rest).map (fun p => (Json.str p.1, p.2))
      else if c = 'n' then (expectLit ('u' :: 'l' :: 'l' :: []) rest).map (fun r => (Json.null, r))
      else if c = 't' then (expectLit ('r' :: 'u' :: 'e' :: []) rest).map (fun r => (Json.bool true, r))
      else if c = 'f' then (expectLit ('a' :: 'l' :: 's' :: 'e' :: []) rest).map (fun r => (Json.bool false, r))
      else parseNum (c :: rest)

/-- Object members after the opening brace (at least one member). -/
def parseMembers : Nat → Str → List (Str × Json) → Option (Json × Str)
  | 0, _, _ => none
  | f+1, s, acc =>
    match skipWs s with
    | '"' :: rest =>
      match parseStringBody (rest.length + 1) rest with
      | none => none
      | some (key, r1) =>
        match skipWs r1 with
        | ':' :: r2 =>
          match parseVal f r2 with
          | none => none
          | some (v, r3) =>
            match skipWs r3 with
            | ',' :: r4 => parseMembers f r4 (acc ++ [(key, v)])
            | '\x7d' :: r4 => some (Json.obj (acc ++ [(key, v)]), r4)
            | _ => none
        | _ => none
    | _ => none

/-- Array elements after the opening bracket (at least one element). -/
def parseElems : Nat → Str → List Json → Option (Json × Str)
  | 0, _, _ => none
  | f+1, s, acc =>
    match parseVal f s with
    | none => none
    | some (v, r1) =>
      match skipWs r1 with
      | ',' :: r2 => parseElems f r2 (acc ++ [v])
      | ']' :: r2 => some (Json.arr (acc ++ [v]), r2)
      | _ => none

end

/-- serde_json::from_str::<serde_json::Value>: a whole-input JSON parse. -/
def Json.parse (s : Str) : Option Json :=
  match parseVal (s.length + 2) s with
  | none => none
  | some (j, rest) => if (skipWs rest).isEmpty then some j else none

/-- qwen.rs:417-425 struct Usage (u32 token counters; the decoder never does
arithmetic on them, so Nat is an exact model on the values that occur). -/
structure Usage where
  input_tokens : Nat
  output_tokens : Nat
  total_tokens : Nat
deriving DecidableEq, Repr

/-- qwen.rs:428-440 Usage::new - every counter zero. -/
def Usage.new : Usage := ⟨0, 0, 0⟩

/-- qwen.rs:1032-1039 struct StreamingFunction. -/
structure StreamingFunction where
  name : Option Str
  arguments : Str
deriving DecidableEq, Repr

/-- qwen.rs:1018-1029 struct StreamingToolCall (the r#type field is a unit
default never read by the decoder and is omitted). -/
structure StreamingToolCall where
  id : Option Str
  index : Nat
  function : StreamingFunction
deriving DecidableEq, Repr

/-- qwen.rs:1052-1066 struct StreamingMessage (role is marked dead_code). -/
structure StreamingMessage where
  role : Str
  content : Option Str
  reasoning_content : Option Str
  tool_calls : List StreamingToolCall
deriving DecidableEq, Repr

/-- qwen.rs:1042-1049 struct StreamingChoice (finish_reason is dead_code). -/
structure StreamingChoice where
  message : StreamingMessage
  finish_reason : Option Str
deriving DecidableEq, Repr

/-- qwen.rs:1078-1082 struct StreamingOutput. -/
structure StreamingOutput where
  choices : List StreamingChoice
deriving DecidableEq, Repr

/-- qwen.rs:1069-1075 struct StreamingCompletionChunk. -/
structure StreamingCompletionChunk where
  output : StreamingOutput
  usage : Option Usage
deriving DecidableEq, Repr

/-- One entry of the tool-call map: the (id, name, arguments) triple stored at
qwen.rs:1144 in calls : HashMap<usize, (String, String, String)>. -/
structure CallAcc where
  id : Str
  name : Str
  args : Str
deriving DecidableEq, Repr

/-- The tool-call map, as an association list with key-replacing insert. -/
abbrev Calls := List (Nat × CallAcc)

/-- HashMap::get. -/
def mapGet (m : Calls) (k : Nat) : Option CallAcc :=
  (m.find? (fun e => e.1 == k)).map (fun e => e.2)

/-- HashMap::insert (replaces the value when the key is present). -/
def mapInsert (m : Calls) (k : Nat) (v : CallAcc) : Calls :=
  if m.any (fun e => e.1 == k) then
    m.map (fun e => if e.1 == k then (k, v) else e)
  else m ++ [(k, v)]

/-- The items yielded by the stream body of send_qwen_streaming_request:
the RawStreamingChoice variants it actually constructs, plus the Err case.
The constant None fields of the source (Reasoning.id, Reasoning.signature,
ToolCall.call_id) are omitted. -/
inductive QEvent where
  | reasoning (text : Str)
  | message (text : Str)
  | toolCall (id name : Str) (arguments : Json)
  | error (msg : Str)
  | final (usage : Usage)
deriving Repr

/-- Discriminator for Final events. -/
def isFinalEv : QEvent → Bool
  | .final _ => true
  | _ => false

/-- Discriminator for Error events. -/
def isErrorEv : QEvent → Bool
  | .error _ => true
  | _ => false

/-- Discriminator for ToolCall events. -/
def isToolCallEv : QEvent → Bool
  | .toolCall _ _ _ => true
  | _ => false

/-- The guard if !incremental.is_empty() before a yield
(qwen.rs:1200, 1311): an empty increment is never emitted. -/
def emitGuard (s : Str) : Option Str :=
  if s.isEmpty then none else some s

/-- The channel reconciler, qwen.rs:1179-1207 (reasoning channel) and
qwen.rs:1288-1315 (text channel) - the two code blocks are identical up to
which accumulator and event constructor they use.  Given the accumulated
value and the newly observed value, returns the new accumulated value and
the increment to yield (none when nothing is yielded). -/
def channelDelta (acc newv : Str) : Str × Option Str :=
  if newv.isEmpty then (acc, none)
  else if byteLen acc ≤ byteLen newv then
    -- cumulative case, qwen.rs:1293-1303: emit the suffix (or, on a
    -- mismatch, the whole value) and replace the accumulator
    (newv, emitGuard (if acc.isPrefixOf newv then newv.drop acc.length else newv))
  else
    -- incremental case, qwen.rs:1304-1308: append and emit verbatim
    (acc ++ newv, emitGuard newv)

/-- Lifts channelDelta over the optional field of the chunk: an absent field
leaves the channel untouched (the if-let at qwen.rs:1179 / 1288). -/
def processChannel (acc : Str) (v : Option Str) : Str × Option Str :=
  match v with
  | none => (acc, none)
  | some s => channelDelta acc s

/-- One iteration of the tool-call loop, qwen.rs:1212-1283: classify the
fragment and update the map, returning the events yielded. -/
def processFragment (calls : Calls) (tc : StreamingToolCall) : Calls × List QEvent :=
  let fn := tc.function
  if ((fn.name.map (fun s => !s.isEmpty)).getD false) && fn.arguments.isEmpty then
    -- qwen.rs:1216-1224: start - a name but no arguments yet
    let id := tc.id.getD []
    let name := fn.name.getD []
    (mapInsert calls tc.index ⟨id, name, []⟩, [])
  else if !fn.arguments.isEmpty then
    match mapGet calls tc.index with
    | some acc =>
      -- qwen.rs:1228-1251: continuation of an existing accumulator
      let inc :=
        if acc.args.isPrefixOf fn.arguments then fn.arguments.drop acc.args.length
        else fn.arguments
      let evs := if !inc.isEmpty then [QEvent.message inc] else []
      let combined :=
        if acc.args.isPrefixOf fn.arguments then fn.arguments
        else acc.args ++ fn.arguments
      (mapInsert calls tc.index ⟨acc.id, acc.name, combined⟩, evs)
    | none =>
      -- qwen.rs:1252-1263: arguments with no accumulator yet (orphan)
      let evs := if !fn.arguments.isEmpty then [QEvent.message fn.arguments] else []
      let id := tc.id.getD (("call_" ++ toString tc.index).toList)
      let name := fn.name.getD ("unknown".toList)
      (mapInsert calls tc.index ⟨id, name, fn.arguments⟩, evs)
  else
    -- qwen.rs:1266-1283: id and name present, arguments empty here
    match tc.id, fn.name with
    | some id, some name =>
      match Json.parse fn.arguments with
      | some j => (calls, [QEvent.toolCall id name j])
      | none => (calls, [])
    | _, _ => (calls, [])

/-- The for-loop over message.tool_calls, qwen.rs:1212-1284, in order. -/
def processToolCalls (calls : Calls) : List StreamingToolCall → Calls × List QEvent
  | [] => (calls, [])
  | tc :: rest =>
    ((processToolCalls (processFragment calls tc).1 rest).1,
     (processFragment calls tc).2 ++ (processToolCalls (processFragment calls tc).1 rest).2)

/-- The decoder's mutable state (qwen.rs:1137-1144). -/
structure DecState where
  final_usage : Usage
  text_response : Str
  reasoning_response : Str
  calls : Calls
deriving DecidableEq, Repr

/-- The state at the start of the stream body. -/
def initState : DecState := ⟨Usage.new, [], [], []⟩

/-- The guarded yield of a channel increment (the
if !incremental.is_empty() blocks, already folded into the Option). -/
def optEvent (f : Str → QEvent) : Option Str → List QEvent
  | none => []
  | some s => [f s]

/-- Processing of the first choice's message, qwen.rs:1176-1316: the
reasoning channel (1179-1208), then the tool-call loop (1211-1285), then the
text channel (1288-1315).  Events are returned in yield order. -/
def processChoice (st : DecState) (m : StreamingMessage) : DecState × List QEvent :=
  let r := processChannel st.reasoning_response m.reasoning_content
  let t := processToolCalls st.calls m.tool_calls
  let c := processChannel st.text_response m.content
  ({ st with reasoning_response := r.1, calls := t.1, text_response := c.1 },
   optEvent QEvent.reasoning r.2 ++ t.2 ++ optEvent QEvent.message c.2)

/-- The usage overwrite, qwen.rs:1319-1321. -/
def applyUsage (st : DecState) : Option Usage → DecState
  | some u => { st with final_usage := u }
  | none => st

/-- Processing of one successfully parsed chunk, qwen.rs:1175-1321: the first
choice (if any) is processed, then a carried usage block overwrites
final_usage. -/
def processChunk (st : DecState) (chunk : StreamingCompletionChunk) : DecState × List QEvent :=
  let s1 :=
    match chunk.output.choices.head? with
    | none => (st, [])
    | some choice => processChoice st choice.message
  (applyUsage s1.1 chunk.usage, s1.2)

/-- The events surfaced by the SSE event source (qwen.rs:1148-1336): Open,
Message(data), Err(StreamEnded) and any other Err. -/
inductive SseEvent where
  | opened
  | message (data : Str)
  | streamEnded
  | transportError (msg : Str)
deriving DecidableEq, Repr

/-- str::trim (both-ends whitespace strip). -/
def rustTrim (s : Str) : Str :=
  ((s.dropWhile Char.isWhitespace).reverse.dropWhile Char.isWhitespace).reverse

/-- The abstract chunk deserializer
serde_json::from_str::<StreamingCompletionChunk> (external library). -/
abbrev ChunkParser := Str → Option StreamingCompletionChunk

/-- The while-let event loop, qwen.rs:1147-1338: Open continues; an empty or
unparseable message is skipped; a parsed chunk is processed; StreamEnded
breaks; any other error yields one Error event and breaks. -/
def runLoop (p : ChunkParser) (st : DecState) : List SseEvent → DecState × List QEvent
  | [] => (st, [])
  | .opened :: rest => runLoop p st rest
  | .message data :: rest =>
    if (rustTrim data).isEmpty then runLoop p st rest
    else
      match p data with
      | none => runLoop p st rest
      | some chunk =>
        ((runLoop p (processChunk st chunk).1 rest).1,
         (processChunk st chunk).2 ++ (runLoop p (processChunk st chunk).1 rest).2)
  | .streamEnded :: _ => (st, [])
  | .transportError msg :: _ => (st, [QEvent.error msg])

/-- Stream-end finalization of the tool-call map, qwen.rs:1342-1369, applied
to the map entries in the order the HashMap iterator produces them: each
entry whose accumulated arguments parse as JSON yields one ToolCall event;
the others are dropped. -/
def finalizeCalls : List (Nat × CallAcc) → List QEvent
  | [] => []
  | (_, acc) :: rest =>
    match Json.parse acc.args with
    | none => finalizeCalls rest
    | some j => QEvent.toolCall acc.id acc.name j :: finalizeCalls rest

/-- An admissible model of HashMap iteration: the enumeration must list
exactly the map's entries, in some arbitrary order. -/
def validEnum (enum : Calls → List (Nat × CallAcc)) : Prop :=
  ∀ m : Calls, (enum m).Perm m

/-- A whole run of the stream body, qwen.rs:1136-1389: the event loop, then
(unconditionally - also after a transport error) the tool-call finalization
and the one FinalResponse carrying the last usage seen. -/
def decodeRun (p : ChunkParser) (enum : Calls → List (Nat × CallAcc))
    (events : List SseEvent) : List QEvent :=
  (runLoop p initState events).2 ++
    finalizeCalls (enum (runLoop p initState events).1.calls) ++
    [QEvent.final (runLoop p initState events).1.final_usage]

/-- The loop restricted to parsed chunks: the state/event trace of a run in
which every SSE message parses (see runLoop_messages_eq_runChunksState). -/
def runChunksState (st : DecState) : List StreamingCompletionChunk → DecState × List QEvent
  | [] => (st, [])
  | c :: rest =>
    ((runChunksState (processChunk st c).1 rest).1,
     (processChunk st c).2 ++ (runChunksState (processChunk st c).1 rest).2)

/-- A clean run presented chunk-by-chunk: all messages parse and the source
then ends cleanly, so the loop trace is followed by finalization and the
Final event. -/
def runFromChunks (enum : Calls → List (Nat × CallAcc))
    (chunks : List StreamingCompletionChunk) : List QEvent :=
  (runChunksState initState chunks).2 ++
    finalizeCalls (enum (runChunksState initState chunks).1.calls) ++
    [QEvent.final (runChunksState initState chunks).1.final_usage]

/-- One channel of the reconciler applied to a sequence of observed values
(qwen.rs:1288-1315 iterated), collecting the emitted increments. -/
def runChannel : Str → List Str → Str × List Str
  | acc, [] => (acc, [])
  | acc, v :: vs =>
    ((runChannel (channelDelta acc v).1 vs).1,
     (channelDelta acc v).2.toList ++ (runChannel (channelDelta acc v).1 vs).2)

/-- The last usage block among a chunk sequence, qwen.rs:1319-1321 iterated. -/
def lastUsage : List StreamingCompletionChunk → Option Usage
  | [] => none
  | c :: rest =>
    match lastUsage rest with
    | some u => some u
    | none => c.usage

/-- Whether the first terminating source event (StreamEnded or a transport
error) of the event list is a transport error - i.e. whether the loop ends
by the error branch. -/
def isTermEv : SseEvent → Bool
  | .streamEnded => true
  | .transportError _ => true
  | _ => false

/-- The run fails (reaches the Err branch of the loop) iff the first
terminating event of the source is a transport error. -/
def erroredRun (events : List SseEvent) : Bool :=
  match events.find? isTermEv with
  | some (.transportError _) => true
  | _ => false

/-- A chunk whose only payload is a single tool-call fragment (the shape of
the wire fixtures used below). -/
def mkToolChunk (tc : StreamingToolCall) : StreamingCompletionChunk :=
  ⟨⟨[⟨⟨"assistant".toList, none, none, [tc]⟩, none⟩]⟩, none⟩

/-- Fragment 1 of the determinism fixture: index 0, name f, empty args. -/
def c6a : StreamingCompletionChunk :=
  mkToolChunk ⟨none, 0, ⟨some ('f' :: []), []⟩⟩

/-- Fragment 2 of the determinism fixture: index 0, args \x7b"a": . -/
def c6b : StreamingCompletionChunk :=
  mkToolChunk ⟨none, 0, ⟨none, "\x7b\"a\":".toList⟩⟩

/-- Fragment 3 of the determinism fixture: index 0, args 1\x7d . -/
def c6c : StreamingCompletionChunk :=
  mkToolChunk ⟨none, 0, ⟨none, "1\x7d".toList⟩⟩

/-- Two-call fixture: start of call 0 (name f). -/
def c4a : StreamingCompletionChunk :=
  mkToolChunk ⟨none, 0, ⟨some ('f' :: []), []⟩⟩

/-- Two-call fixture: arguments 1 for call 0. -/
def c4b : StreamingCompletionChunk :=
  mkToolChunk ⟨none, 0, ⟨none, '1' :: []⟩⟩

/-- Two-call fixture: start of call 1 (name g). -/
def c4c : StreamingCompletionChunk :=
  mkToolChunk ⟨none, 1, ⟨some ('g' :: []), []⟩⟩

/-- Two-call fixture: arguments 2 for call 1. -/
def c4d : StreamingCompletionChunk :=
  mkToolChunk ⟨none, 1, ⟨none, '2' :: []⟩⟩

/-! ### General lemmas about the embedding -/

lemma byteLen_append (a b : Str) : byteLen (a ++ b) = byteLen a + byteLen b := by
  simp [byteLen]

lemma exists_append_of_isPrefixOf {a b : Str} (h : a.isPrefixOf b = true) :
    ∃ t, b = a ++ t := by
  obtain ⟨t, ht⟩ := List.isPrefixOf_iff_prefix.mp h
  exact ⟨t, ht.symm⟩

lemma byteLen_le_of_isPrefixOf {a b : Str} (h : a.isPrefixOf b = true) :
    byteLen a ≤ byteLen b := by
  obtain ⟨t, rfl⟩ := exists_append_of_isPrefixOf h
  rw [byteLen_append]
  exact Nat.le_add_right _ _

lemma append_drop_of_isPrefixOf {a b : Str} (h : a.isPrefixOf b = true) :
    a ++ b.drop a.length = b := by
  obtain ⟨t, rfl⟩ := exists_append_of_isPrefixOf h
  rw [List.drop_left]

lemma isEmpty_false_of_ne_nil {v : Str} (hv : v ≠ []) : v.isEmpty = false := by
  cases v with
  | nil => exact absurd rfl hv
  | cons a l => rfl

/-- When the new value extends the accumulator, the reconciler replaces the
accumulator with the new value and the emitted increment is exactly the
missing suffix. -/
lemma channelDelta_of_prefix {acc v : Str} (hp : acc.isPrefixOf v = true) (hv : v ≠ []) :
    (channelDelta acc v).1 = v ∧ acc ++ ((channelDelta acc v).2.getD []) = v := by
  have hle := byteLen_le_of_isPrefixOf hp
  have hve := isEmpty_false_of_ne_nil hv
  have had := append_drop_of_isPrefixOf hp
  unfold channelDelta
  rw [hve]
  simp only [Bool.false_eq_true, if_false, if_pos hle, if_pos hp]
  refine ⟨trivial, ?_⟩
  unfold emitGuard
  cases hd : (v.drop acc.length).isEmpty with
  | false => simpa using had
  | true =>
    have hnil : v.drop acc.length = [] := by
      cases hdd : v.drop acc.length with
      | nil => rfl
      | cons a l => rw [hdd] at hd; exact absurd hd (by simp)
    rw [hnil] at had
    simpa using had

lemma flatten_optToList (o : Option Str) (es : List Str) :
    (o.toList ++ es).flatten = o.getD [] ++ es.flatten := by
  cases o <;> simp

/-- The reconciler over a chain of successive prefix-extensions: the final
accumulator is the last snapshot, and the emitted increments concatenate to
the missing part of the last snapshot. -/
lemma runChannel_chain (vs : List Str) : ∀ acc : Str,
    List.Chain' (fun a b => a.isPrefixOf b = true) (acc :: vs) →
    (∀ v ∈ vs, v ≠ []) →
    acc ++ (runChannel acc vs).2.flatten = (acc :: vs).getLast (List.cons_ne_nil _ _) ∧
    (runChannel acc vs).1 = (acc :: vs).getLast (List.cons_ne_nil _ _) := by
  induction vs with
  | nil =>
    intro acc _ _
    exact ⟨by simp [runChannel], rfl⟩
  | cons v vs ih =>
    intro acc hchain hne
    have h1 : acc.isPrefixOf v = true := (List.chain'_cons.mp hchain).1
    have h2 := (List.chain'_cons.mp hchain).2
    have hv : v ≠ [] := hne v (by simp)
    have hcd := channelDelta_of_prefix h1 hv
    have hih := ih v h2 (fun w hw => hne w (by simp [hw]))
    have hlast : ((acc :: v :: vs).getLast (List.cons_ne_nil _ _)) =
        ((v :: vs).getLast (List.cons_ne_nil _ _)) := List.getLast_cons _
    rw [hlast]
    simp only [runChannel, hcd.1]
    constructor
    · rw [flatten_optToList, ← List.append_assoc, hcd.2]
      exact hih.1
    · exact hih.2

/-! ### The loop body yields no Error and no Final event -/

lemma processFragment_countP (c : Calls) (tc : StreamingToolCall) :
    ((processFragment c tc).2).countP isErrorEv = 0 ∧
    ((processFragment c tc).2).countP isFinalEv = 0 := by
  unfold processFragment
  dsimp only
  repeat' split
  all_goals exact ⟨rfl, rfl⟩

lemma processToolCalls_countP (tcs : List StreamingToolCall) : ∀ c : Calls,
    ((processToolCalls c tcs).2).countP isErrorEv = 0 ∧
    ((processToolCalls c tcs).2).countP isFinalEv = 0 := by
  induction tcs with
  | nil => intro c; exact ⟨rfl, rfl⟩
  | cons tc rest ih =>
    intro c
    constructor
    · simp only [processToolCalls, List.countP_append,
        (processFragment_countP c tc).1, (ih (processFragment c tc).1).1]
    · simp only [processToolCalls, List.countP_append,
        (processFragment_countP c tc).2, (ih (processFragment c tc).1).2]

lemma optEvent_countP (f : Str → QEvent) (p : QEvent → Bool)
    (hf : ∀ s, p (f s) = false) (o : Option Str) : (optEvent f o).countP p = 0 := by
  cases o <;> simp [optEvent, hf]

lemma processChoice_countP (st : DecState) (m : StreamingMessage) :
    ((processChoice st m).2).countP isErrorEv = 0 ∧
    ((processChoice st m).2).countP isFinalEv = 0 := by
  unfold processChoice
  dsimp only
  constructor
  · simp only [List.countP_append,
      optEvent_countP QEvent.reasoning isErrorEv (fun s => rfl) _,
      optEvent_countP QEvent.message isErrorEv (fun s => rfl) _,
      (processToolCalls_countP _ _).1]
  · simp only [List.countP_append,
      optEvent_countP QEvent.reasoning isFinalEv (fun s => rfl) _,
      optEvent_countP QEvent.message isFinalEv (fun s => rfl) _,
      (processToolCalls_countP _ _).2]

lemma processChunk_countP (st : DecState) (c : StreamingCompletionChunk) :
    ((processChunk st c).2).countP isErrorEv = 0 ∧
    ((processChunk st c).2).countP isFinalEv = 0 := by
  unfold processChunk
  dsimp only
  cases h : c.output.choices.head? with
  | none => exact ⟨rfl, rfl⟩
  | some choice => exact processChoice_countP st choice.message

/-! ### Event counts of the loop and of finalization -/

lemma runLoop_countP_final (p : ChunkParser) (evs : List SseEvent) : ∀ st : DecState,
    ((runLoop p st evs).2).countP isFinalEv = 0 := by
  induction evs with
  | nil => intro st; rfl
  | cons ev rest ih =>
    intro st
    cases ev with
    | opened => exact ih st
    | streamEnded => rfl
    | transportError msg => rfl
    | message data =>
      simp only [runLoop]
      split
      · exact ih st
      · split
        · exact ih st
        · simp only [List.countP_append, (processChunk_countP _ _).2, ih _]

lemma erroredRun_cons_opened (rest : List SseEvent) :
    erroredRun (SseEvent.opened :: rest) = erroredRun rest := by
  simp [erroredRun, List.find?_cons, isTermEv]

lemma erroredRun_cons_message (data : Str) (rest : List SseEvent) :
    erroredRun (SseEvent.message data :: rest) = erroredRun rest := by
  simp [erroredRun, List.find?_cons, isTermEv]

lemma runLoop_countP_error (p : ChunkParser) (evs : List SseEvent) : ∀ st : DecState,
    ((runLoop p st evs).2).countP isErrorEv = (if erroredRun evs then 1 else 0) := by
  induction evs with
  | nil => intro st; rfl
  | cons ev rest ih =>
    intro st
    cases ev with
    | opened => rw [erroredRun_cons_opened]; exact ih st
    | streamEnded => simp [runLoop, erroredRun, List.find?_cons, isTermEv]
    | transportError msg =>
      simp [runLoop, erroredRun, List.find?_cons, isTermEv, isErrorEv]
    | message data =>
      rw [erroredRun_cons_message]
      simp only [runLoop]
      split
      · exact ih st
      · split
        · exact ih st
        · simp only [List.countP_append, (processChunk_countP _ _).1, ih _, Nat.zero_add]

lemma finalizeCalls_eq_filterMap (l : List (Nat × CallAcc)) :
    finalizeCalls l = l.filterMap
      (fun e => (Json.parse e.2.args).map (fun j => QEvent.toolCall e.2.id e.2.name j)) := by
  induction l with
  | nil => rfl
  | cons e rest ih =>
    cases e with
    | mk idx acc =>
      cases hj : Json.parse acc.args <;>
        simp [finalizeCalls, List.filterMap_cons, hj, ih]

lemma finalizeCalls_countP_error (l : List (Nat × CallAcc)) :
    (finalizeCalls l).countP isErrorEv = 0 := by
  induction l with
  | nil => rfl
  | cons e rest ih =>
    cases e with
    | mk idx acc =>
      cases hj : Json.parse acc.args <;> simp [finalizeCalls, hj, ih, isErrorEv]

lemma finalizeCalls_countP_final (l : List (Nat × CallAcc)) :
    (finalizeCalls l).countP isFinalEv = 0 := by
  induction l with
  | nil => rfl
  | cons e rest ih =>
    cases e with
    | mk idx acc =>
      cases hj : Json.parse acc.args <;> simp [finalizeCalls, hj, ih, isFinalEv]

/-! ### Usage tracking -/

lemma processChunk_final_usage (st : DecState) (c : StreamingCompletionChunk) :
    (processChunk st c).1.final_usage = c.usage.getD st.final_usage := by
  cases hc : c.output.choices.head? <;> cases hu : c.usage <;>
    simp [processChunk, applyUsage, processChoice, hc, hu]

lemma runChunksState_final_usage (cs : List StreamingCompletionChunk) : ∀ st : DecState,
    (runChunksState st cs).1.final_usage = (lastUsage cs).getD st.final_usage := by
  induction cs with
  | nil => intro st; rfl
  | cons c rest ih =>
    intro st
    simp only [runChunksState]
    rw [ih (processChunk st c).1, processChunk_final_usage]
    cases h : lastUsage rest <;> cases hu : c.usage <;> simp [lastUsage, h, hu]

lemma lastUsage_eq_none {chunks : List StreamingCompletionChunk}
    (h : ∀ c ∈ chunks, c.usage = none) : lastUsage chunks = none := by
  induction chunks with
  | nil => rfl
  | cons c rest ih =>
    have hc := h c (by simp)
    have hr := ih (fun d hd => h d (by simp [hd]))
    simp [lastUsage, hr, hc]

lemma runFromChunks_getLast? (enum : Calls → List (Nat × CallAcc))
    (chunks : List StreamingCompletionChunk) :
    (runFromChunks enum chunks).getLast? =
      some (QEvent.final ((lastUsage chunks).getD Usage.new)) := by
  unfold runFromChunks
  rw [List.getLast?_concat, runChunksState_final_usage]
  rfl

/-! ### The claims -/

/-- Claim C1, counterexample: on a source that immediately reports a
transport error, the stream body yields the Error event and then still
yields the Final event - the run contains both, and Error is not the last
element, contradicting the claimed either-or termination contract. -/
theorem C1_counterexample :
    decodeRun (fun _ => none) (fun m => m) [SseEvent.transportError ("boom".toList)] =
      [QEvent.error ("boom".toList), QEvent.final Usage.new] ∧
    (decodeRun (fun _ => none) (fun m => m)
      [SseEvent.transportError ("boom".toList)]).countP isErrorEv = 1 ∧
    (decodeRun (fun _ => none) (fun m => m)
      [SseEvent.transportError ("boom".toList)]).getLast? =
      some (QEvent.final Usage.new) :=
  ⟨rfl, rfl, rfl⟩

/-- Claim C1 (amended): every run of the streaming decoder yields exactly one
Final event, and it is the last element of the output sequence, whether the
source ended cleanly or with a transport error; a run additionally contains
exactly one Error event when (and only when) the first terminating source
event is a transport error, and that Error event precedes the Final event. -/
theorem C1_amended (p : ChunkParser) (enum : Calls → List (Nat × CallAcc))
    (events : List SseEvent) :
    (decodeRun p enum events).countP isFinalEv = 1 ∧
    (decodeRun p enum events).countP isErrorEv = (if erroredRun events then 1 else 0) ∧
    (∃ u : Usage, (decodeRun p enum events).getLast? = some (QEvent.final u)) := by
  unfold decodeRun
  refine ⟨?_, ?_, ⟨_, List.getLast?_concat _⟩⟩
  · rw [List.countP_append, List.countP_append,
      runLoop_countP_final p events initState, finalizeCalls_countP_final]
    rfl
  · rw [List.countP_append, List.countP_append,
      runLoop_countP_error p events initState, finalizeCalls_countP_error]
    simp [isErrorEv]

/-- Claim C2, counterexample: a single fragment carrying an id, a non-empty
name and arguments that are a complete JSON object, at an index with no
existing accumulator, does not produce an immediate ToolCall event: the
branch order of qwen.rs:1216/1226 routes it to the orphan-continuation path,
which emits the raw arguments as a text event and leaves an accumulator
entry at the index. -/
theorem C2_counterexample :
    Json.parse ("\x7b\x7d".toList) = some (Json.obj []) ∧
    processFragment [] ⟨some ('a' :: []), 0, ⟨some ('f' :: []), "\x7b\x7d".toList⟩⟩ =
      ([(0, ⟨'a' :: [], 'f' :: [], "\x7b\x7d".toList⟩)],
       [QEvent.message ("\x7b\x7d".toList)]) :=
  ⟨rfl, rfl⟩

/-- Claim C2 (amended): a single fragment with an id, a non-empty name and
complete-JSON arguments, at an index with no existing accumulator, is
handled by the orphan-continuation path: the decoder emits the arguments
text as a visible text event and inserts the accumulator (id, name,
arguments) at that index; no ToolCall event is emitted by the fragment
itself (it is produced at stream-end finalization instead). -/
theorem C2_amended (callsMap : Calls) (idx : Nat) (id name args : Str) (j : Json)
    (h1 : name ≠ []) (h2 : Json.parse args = some j) (h3 : mapGet callsMap idx = none) :
    processFragment callsMap ⟨some id, idx, ⟨some name, args⟩⟩ =
      (mapInsert callsMap idx ⟨id, name, args⟩, [QEvent.message args]) := by
  have hargs : args ≠ [] := by
    intro he
    rw [he] at h2
    exact Option.noConfusion h2
  have hae : args.isEmpty = false := isEmpty_false_of_ne_nil hargs
  unfold processFragment
  dsimp only
  rw [hae, h3]
  simp

/-- Witness for C2_amended at a concrete self-contained fragment. -/
theorem C2_witness :
    processFragment [] ⟨some ('b' :: []), 3, ⟨some ('g' :: []), "\x7b\x7d".toList⟩⟩ =
      (mapInsert [] 3 ⟨'b' :: [], 'g' :: [], "\x7b\x7d".toList⟩,
       [QEvent.message ("\x7b\x7d".toList)]) :=
  C2_amended [] 3 ('b' :: []) ('g' :: []) ("\x7b\x7d".toList) (Json.obj [])
    (by decide) rfl rfl

/-- Claim C3, counterexample: with accumulated ab and new value xyz (not an
extension, but longer), the reconciler emits xyz verbatim but sets the
accumulator to xyz - a wholesale replacement - and not to the concatenation
abxyz that the claim requires. -/
theorem C3_counterexample :
    channelDelta ("ab".toList) ("xyz".toList) = ("xyz".toList, some ("xyz".toList)) ∧
    ("xyz".toList : Str) ≠ "ab".toList ++ "xyz".toList :=
  ⟨rfl, by decide⟩

/-- Claim C3 (amended): for a non-empty new value that is not a
prefix-extension of the accumulator, the reconciler emits the new value
verbatim in both sub-cases, but updates the accumulator differently: when
the new value is strictly shorter (in UTF-8 bytes) it appends
(accumulated ++ new_value); when it is at least as long but does not start
with the accumulator it replaces the accumulator with new_value. -/
theorem C3_amended (acc newv : Str) (h1 : newv ≠ []) :
    (byteLen newv < byteLen acc → channelDelta acc newv = (acc ++ newv, some newv)) ∧
    (byteLen acc ≤ byteLen newv → acc.isPrefixOf newv = false →
      channelDelta acc newv = (newv, some newv)) := by
  have hne := isEmpty_false_of_ne_nil h1
  constructor
  · intro hlt
    unfold channelDelta
    rw [hne, if_neg (by simp), if_neg (Nat.not_le.mpr hlt)]
    unfold emitGuard
    rw [hne]
    simp
  · intro hle hpf
    unfold channelDelta
    rw [hne, if_neg (by simp), if_pos hle, hpf, if_neg (by simp)]
    unfold emitGuard
    rw [hne]
    simp

/-- Witness for C3_amended: the strictly-shorter sub-case at accumulated ab
and new value x. -/
theorem C3_witness :
    channelDelta ("ab".toList) ("x".toList) = ("ab".toList ++ "x".toList, some ("x".toList)) :=
  (C3_amended ("ab".toList) ("x".toList) (by decide)).1 (by decide)

/-- Claim C4, counterexample: the finalization loop iterates the HashMap
directly (qwen.rs:1345) without sorting, so any enumeration order of the
entries is admissible; under the (valid) reversed enumeration of a map
holding calls at indices 0 (name f) and 1 (name g), the run emits the
index-1 ToolCall before the index-0 one - not increasing index order. -/
theorem C4_counterexample :
    validEnum (fun m => m.reverse) ∧
    (runChunksState initState [c4a, c4b, c4c, c4d]).1.calls =
      [(0, ⟨[], 'f' :: [], '1' :: []⟩), (1, ⟨[], 'g' :: [], '2' :: []⟩)] ∧
    runFromChunks (fun m => m.reverse) [c4a, c4b, c4c, c4d] =
      [QEvent.message ('1' :: []), QEvent.message ('2' :: []),
       QEvent.toolCall [] ('g' :: []) (Json.num 2),
       QEvent.toolCall [] ('f' :: []) (Json.num 1),
       QEvent.final Usage.new] :=
  ⟨fun m => List.reverse_perm m, rfl, rfl⟩

/-- Claim C4 (amended): at stream end, every accumulator still resident in
the map whose accumulated arguments parse as JSON yields exactly one
ToolCall event built from its (id, name, parsed arguments), and these
events appear in the map's enumeration order - the unspecified iteration
order of the HashMap, which is some permutation of the entries but not
necessarily increasing index order. -/
theorem C4_amended (enum : Calls → List (Nat × CallAcc)) (m : Calls)
    (h : validEnum enum) :
    finalizeCalls (enum m) =
      (enum m).filterMap
        (fun e => (Json.parse e.2.args).map (fun j => QEvent.toolCall e.2.id e.2.name j)) ∧
    (finalizeCalls (enum m)).Perm (finalizeCalls m) := by
  refine ⟨finalizeCalls_eq_filterMap _, ?_⟩
  rw [finalizeCalls_eq_filterMap (enum m), finalizeCalls_eq_filterMap m]
  exact (h m).filterMap _

/-- Witness for C4_amended at the identity enumeration of a one-entry map. -/
theorem C4_witness :
    finalizeCalls ((fun m : Calls => m) [(0, ⟨[], 'f' :: [], '1' :: []⟩)]) =
      ((fun m : Calls => m) [(0, ⟨[], 'f' :: [], '1' :: []⟩)]).filterMap
        (fun e => (Json.parse e.2.args).map (fun j => QEvent.toolCall e.2.id e.2.name j)) ∧
    (finalizeCalls ((fun m : Calls => m) [(0, ⟨[], 'f' :: [], '1' :: []⟩)])).Perm
      (finalizeCalls [(0, ⟨[], 'f' :: [], '1' :: []⟩)]) :=
  C4_amended (fun m => m) [(0, ⟨[], 'f' :: [], '1' :: []⟩)] (fun m => List.Perm.refl m)

/-- Claim C5 (confirmed): applying one channel's reconciler, from an empty
accumulator, to a sequence of non-empty cumulative snapshots each of which
extends the previous one as a prefix, the concatenation of all emitted
increments equals the last snapshot. -/
theorem C5_theorem (vs : List Str) (h0 : vs ≠ []) (h1 : ∀ v ∈ vs, v ≠ [])
    (h2 : List.Chain' (fun a b => a.isPrefixOf b = true) vs) :
    (runChannel [] vs).2.flatten = vs.getLast h0 := by
  cases vs with
  | nil => exact absurd rfl h0
  | cons v vs =>
    have hchain : List.Chain' (fun a b => a.isPrefixOf b = true) ([] :: v :: vs) :=
      List.chain'_cons.mpr ⟨List.isPrefixOf_iff_prefix.mpr List.nil_prefix, h2⟩
    have h := (runChannel_chain (v :: vs) [] hchain (fun w hw => h1 w hw)).1
    rw [List.nil_append] at h
    rw [h]
    exact List.getLast_cons _

/-- Witness for C5_theorem on the snapshot chain a, ab. -/
theorem C5_witness :
    (runChannel [] ["a".toList, "ab".toList]).2.flatten =
      ["a".toList, "ab".toList].getLast (by decide) :=
  C5_theorem ["a".toList, "ab".toList] (by decide) (by decide)
    (List.chain'_cons.mpr ⟨by decide, List.chain'_singleton _⟩)

/-- Claim C6 (confirmed): on the fragment sequence (index 0, name f, empty
args), (index 0, args \x7b"a":), (index 0, args 1\x7d) followed by clean
stream end, the decoder emits exactly one ToolCall event, and it carries
name f and the parsed arguments object with field a mapped to 1. -/
theorem C6_theorem (enum : Calls → List (Nat × CallAcc)) (h : validEnum enum) :
    (runFromChunks enum [c6a, c6b, c6c]).filter isToolCallEv =
      [QEvent.toolCall [] ('f' :: []) (Json.obj [('a' :: [], Json.num 1)])] := by
  have hcalls : (runChunksState initState [c6a, c6b, c6c]).1.calls =
      [(0, ⟨[], 'f' :: [], "\x7b\"a\":1\x7d".toList⟩)] := rfl
  have hm : enum [(0, ⟨[], 'f' :: [], "\x7b\"a\":1\x7d".toList⟩)] =
      [(0, ⟨[], 'f' :: [], "\x7b\"a\":1\x7d".toList⟩)] :=
    List.perm_singleton.mp (h _)
  unfold runFromChunks
  rw [hcalls, hm]
  rfl

/-- Witness for C6_theorem at the identity enumeration. -/
theorem C6_witness :
    (runFromChunks (fun m => m) [c6a, c6b, c6c]).filter isToolCallEv =
      [QEvent.toolCall [] ('f' :: []) (Json.obj [('a' :: [], Json.num 1)])] :=
  C6_theorem (fun m => m) (fun m => List.Perm.refl m)

/-- Claim C7 (confirmed): an SSE message whose body does not deserialize as
a streaming chunk contributes no output event and no state change: the rest
of the loop behaves exactly as if the message had not been received, so a
single malformed chunk never terminates the stream. -/
theorem C7_theorem (p : ChunkParser) (st : DecState) (body : Str)
    (rest : List SseEvent) (h : p body = none) :
    runLoop p st (SseEvent.message body :: rest) = runLoop p st rest := by
  simp only [runLoop]
  split
  · rfl
  · rw [h]

/-- Witness for C7_theorem: the body - not json - under a parser that
rejects it. -/
theorem C7_witness :
    runLoop (fun _ => none) initState [SseEvent.message ("not json".toList)] =
      runLoop (fun _ => none) initState [] :=
  C7_theorem (fun _ => none) initState ("not json".toList) [] rfl

/-- Claim C8 (confirmed): when at least one chunk carries a usage block, the
Final event terminating the run reports exactly the last usage snapshot
seen (last-write-wins), with no aggregation across chunks. -/
theorem C8_theorem (enum : Calls → List (Nat × CallAcc))
    (chunks : List StreamingCompletionChunk) (u : Usage)
    (h : lastUsage chunks = some u) :
    (runFromChunks enum chunks).getLast? = some (QEvent.final u) := by
  rw [runFromChunks_getLast?, h]
  rfl

/-- Witness for C8_theorem: snapshots (1,1,2) then (5,3,8) yield a Final
event reporting (5,3,8), not a sum. -/
theorem C8_witness :
    (runFromChunks (fun m => m)
      [⟨⟨[]⟩, some ⟨1, 1, 2⟩⟩, ⟨⟨[]⟩, some ⟨5, 3, 8⟩⟩]).getLast? =
      some (QEvent.final ⟨5, 3, 8⟩) :=
  C8_theorem (fun m => m) [⟨⟨[]⟩, some ⟨1, 1, 2⟩⟩, ⟨⟨[]⟩, some ⟨5, 3, 8⟩⟩] ⟨5, 3, 8⟩ rfl

/-- Claim C9, counterexample: after the snapshots ab then xyz the text
accumulator is xyz, which does not start with the previous accumulated
value ab - the accumulator was rewritten, not extended. -/
theorem C9_counterexample :
    runChannel [] ["ab".toList, "xyz".toList] = ("xyz".toList, ["ab".toList, "xyz".toList]) ∧
    ("ab".toList).isPrefixOf ((channelDelta ("ab".toList) ("xyz".toList)).1) = false :=
  ⟨rfl, rfl⟩

/-- Claim C9 (amended): on every fragment application the accumulated value
never shrinks in UTF-8 byte length; it is extended as a prefix whenever the
new value either extends the accumulator or is strictly shorter, but in the
remaining case (at least as long, not an extension) it is replaced
wholesale by the new value. -/
theorem C9_amended (acc newv : Str) :
    byteLen acc ≤ byteLen (channelDelta acc newv).1 ∧
    ((acc.isPrefixOf newv = true ∨ byteLen newv < byteLen acc) →
      acc.isPrefixOf (channelDelta acc newv).1 = true) := by
  have hrefl : acc.isPrefixOf acc = true :=
    List.isPrefixOf_iff_prefix.mpr (List.prefix_refl acc)
  cases hne : newv.isEmpty with
  | true =>
    have h1 : channelDelta acc newv = (acc, none) := by
      unfold channelDelta
      rw [hne, if_pos rfl]
    rw [h1]
    exact ⟨Nat.le_refl _, fun _ => hrefl⟩
  | false =>
    by_cases hle : byteLen acc ≤ byteLen newv
    · have h1 : (channelDelta acc newv).1 = newv := by
        unfold channelDelta
        rw [hne, if_neg (by simp), if_pos hle]
      rw [h1]
      refine ⟨hle, fun hc => ?_⟩
      cases hc with
      | inl hp => exact hp
      | inr hlt => exact absurd hlt (Nat.not_lt.mpr hle)
    · have h1 : (channelDelta acc newv).1 = acc ++ newv := by
        unfold channelDelta
        rw [hne, if_neg (by simp), if_neg hle]
      rw [h1, byteLen_append]
      exact ⟨Nat.le_add_right _ _,
        fun _ => List.isPrefixOf_iff_prefix.mpr (List.prefix_append acc newv)⟩

/-- Witness for C9_amended on the extension a then ab. -/
theorem C9_witness :
    byteLen ("a".toList) ≤ byteLen ((channelDelta ("a".toList) ("ab".toList)).1) ∧
    ("a".toList).isPrefixOf ((channelDelta ("a".toList) ("ab".toList)).1) = true :=
  ⟨(C9_amended ("a".toList) ("ab".toList)).1,
   (C9_amended ("a".toList) ("ab".toList)).2 (Or.inl (by decide))⟩

/-- Claim C10 (confirmed): a clean run in which no chunk ever carries a
usage block still terminates with a Final event carrying a usage snapshot,
and that snapshot is all zeros (Usage::new), not an absent field. -/
theorem C10_theorem (enum : Calls → List (Nat × CallAcc))
    (chunks : List StreamingCompletionChunk) (h : ∀ c ∈ chunks, c.usage = none) :
    (runFromChunks enum chunks).getLast? = some (QEvent.final ⟨0, 0, 0⟩) := by
  rw [runFromChunks_getLast?, lastUsage_eq_none h]
  rfl

/-- Witness for C10_theorem on a one-chunk run without usage. -/
theorem C10_witness :
    (runFromChunks (fun m => m) [⟨⟨[]⟩, none⟩]).getLast? =
      some (QEvent.final ⟨0, 0, 0⟩) :=
  C10_theorem (fun m => m) [⟨⟨[]⟩, none⟩] (by decide)

end Qwen
